import Mathlib

/-!
Verification of `extensionsAutoProfiler.ts` (`ExtensionsAutoProfiler`).

The development shallowly embeds the two verifiable parts of the file:

* the pure aggregation algorithm of `_processCpuProfile` (lines 83-135):
  building one slice per sample, sorting by contributor id, merging
  adjacent slices with equal id, computing rounded percentages, selecting
  the top slice with a strict `<` comparison, and deciding whether a
  user-facing prompt is warranted; and

* the per-target session state machine of `_onDidChangeResponsiveChange`
  (lines 39-81), modelled as a labelled transition system whose states
  record the `_session` table, the set of in-flight episodes (one per
  invocation of the async handler that reached the start branch), and the
  number of errors reported through `onUnexpectedError`.

JavaScript numbers are modelled as exact rationals (`ℚ`); `Math.round` is
`jsRound` below (round half towards positive infinity, the JS semantics).
`String.prototype.localeCompare` is modelled by the lexicographic order on
`String`; all the properties proved here depend only on it being a total
order on contributor identifiers.
-/

namespace AutoProfiler

/-- Shape of `IExtensionHostProfile` as consumed by `_processCpuProfile`:
two index-aligned lists (`profile.ids`, `profile.deltas`) and the two
timestamps.  The uninterpreted `data` blob is irrelevant to every claim and is
omitted.  The loop at lines 92-96 iterates `i < profile.ids.length`; the
`zip` below agrees with it whenever the two lists have equal length, which
is the profile invariant assumed by the claims. -/
structure IExtensionHostProfile where
  ids : List String
  deltas : List ℚ
  startTime : ℚ
  endTime : ℚ
deriving DecidableEq

/-- The `NamedSlice` record of `_processCpuProfile` (lines 85-89). -/
structure NamedSlice where
  id : String
  total : ℚ
  percentage : ℚ
deriving DecidableEq

/-- JavaScript `Math.round`: round half towards positive infinity. -/
def jsRound (q : ℚ) : ℚ := (⌊q + 1/2⌋ : ℤ)

/-- One slice candidate per sample, `{ id, total, percentage: 0 }`
(line 95). -/
def mkSlice (p : String × ℚ) : NamedSlice :=
  { id := p.1, total := p.2, percentage := 0 }

/-- The push loop of lines 91-96. -/
def buildData (ids : List String) (deltas : List ℚ) : List NamedSlice :=
  (ids.zip deltas).map mkSlice

/-- Comparator of the sort at line 100:
`(a, b) => a.id.localeCompare(b.id)`. -/
def idLe (a b : NamedSlice) : Prop := a.id ≤ b.id

/-- Strict version of `idLe`; the merged output is sorted by it. -/
def idLt (a b : NamedSlice) : Prop := a.id < b.id

instance : DecidableRel idLe := fun a b => inferInstanceAs (Decidable (a.id ≤ b.id))

instance : DecidableRel idLt := fun a b => inferInstanceAs (Decidable (a.id < b.id))

instance : IsTotal NamedSlice idLe := ⟨fun a b => le_total a.id b.id⟩

instance : IsTrans NamedSlice idLe := ⟨fun _ _ _ h h2 => le_trans h h2⟩

instance : IsTrans NamedSlice idLt := ⟨fun _ _ _ h h2 => lt_trans h h2⟩

/-- The `data.sort(...)` call at line 100.  JavaScript `Array.prototype.sort`
is a stable comparison sort; insertion sort is one. -/
def sortById (l : List NamedSlice) : List NamedSlice := List.insertionSort idLe l

/-- Body of the anchor loop of lines 99-109: `a` plays the role of
`data[anchor]` (the accumulator), the list argument is the remaining
`data[i..]`.  Equal ids are summed into the accumulator, a different id
closes the current anchor slot. -/
def mergeGo : NamedSlice → List NamedSlice → List NamedSlice
  | a, [] => [a]
  | a, b :: rest =>
      if a.id = b.id then
        mergeGo { id := a.id, total := a.total + b.total, percentage := a.percentage } rest
      else
        a :: mergeGo b rest

/-- The merge-by-identifier pass, lines 98-109 (including the final
`data.slice(0, anchor + 1)`). -/
def mergeAdjacent : List NamedSlice → List NamedSlice
  | [] => []
  | a :: rest => mergeGo a rest

/-- Lines 91-109 of `_processCpuProfile`: build, sort, merge. -/
def aggregateSamples (ids : List String) (deltas : List ℚ) : List NamedSlice :=
  mergeAdjacent (sortById (buildData ids deltas))

/-- Line 112: `const duration = profile.endTime - profile.startTime`. -/
def durationOf (p : IExtensionHostProfile) : ℚ := p.endTime - p.startTime

/-- Line 116: `slice.percentage = Math.round(slice.total / percentage)`
where `percentage = duration / 100` (line 113). -/
def setPercentage (dur : ℚ) (s : NamedSlice) : NamedSlice :=
  { s with percentage := jsRound (s.total / (dur / 100)) }

/-- Lines 117-119: `if (!top || top.percentage < slice.percentage) top = slice`. -/
def pickTop (t : Option NamedSlice) (s : NamedSlice) : Option NamedSlice :=
  match t with
  | none => some s
  | some u => if u.percentage < s.percentage then some s else some u

/-- The scan of lines 114-120 that selects `top`. -/
def findTop (l : List NamedSlice) : Option NamedSlice := l.foldl pickTop none

/-- Observable outcome of one `_processCpuProfile` run that reached the
reporting code (lines 126-175): the merged slices with their percentages
(the telemetry `data` payload), the selected `top` slice, the capture
duration, and the `prompt` flag of line 135. -/
structure Summary where
  slices : List NamedSlice
  top : NamedSlice
  duration : ℚ
  promptWarranted : Bool
deriving DecidableEq

/-- Lines 91-135 of `_processCpuProfile` as a pure function.  `none`
corresponds to the early `return` at lines 122-124 (`if (!top)`), in which
case no prompt, no telemetry and no profile file write happen;
`promptWarranted` is line 135,
`top.percentage >= 99 && top.total >= 5e6`. -/
def processCpuProfile (p : IExtensionHostProfile) : Option Summary :=
  match findTop ((aggregateSamples p.ids p.deltas).map (setPercentage (durationOf p))) with
  | none => none
  | some t =>
      some { slices := (aggregateSamples p.ids p.deltas).map (setPercentage (durationOf p)),
             top := t, duration := durationOf p,
             promptWarranted := decide (99 ≤ t.percentage ∧ 5000000 ≤ t.total) }

/-! ### Definitions of the observables used by the claims -/

/-- Total cost attributed to contributor `x` by a slice list. -/
def sliceTotal (l : List NamedSlice) (x : String) : ℚ :=
  ((l.filter (fun s => s.id = x)).map NamedSlice.total).sum

/-- Sum of all slice totals. -/
def totalSum (l : List NamedSlice) : ℚ := (l.map NamedSlice.total).sum

/-- The element `m` is the first maximum of `l` with respect to
`percentage`: everything before it is strictly smaller, everything after
it is no larger.  This is exactly what the scan of lines 114-120 with its
strict `<` test produces. -/
def IsFirstMax (l : List NamedSlice) (m : NamedSlice) : Prop :=
  ∃ l₁ l₂, l = l₁ ++ m :: l₂ ∧ (∀ x ∈ l₁, x.percentage < m.percentage) ∧
    (∀ x ∈ l₂, x.percentage ≤ m.percentage)


/-! ## The session state machine of `_onDidChangeResponsiveChange`

The async handler (lines 39-81) is modelled as a labelled transition
system.  A state holds:

* `table` — the `_session` map (line 25); only the presence of an entry
  per target matters to the claims, so it is a `Target → Bool`;
* `episodes` — one record per in-flight invocation of the handler that
  took the `start profiling` branch, remembering which `await` it is
  suspended at; `Phase.finished` marks an invocation that has returned;
* `unexpectedErrors` — how many errors were reported through
  `onUnexpectedError` (line 76).

The synchronous prefix of the handler (everything up to the first
`await`, lines 42-53) runs atomically as one transition (`handleEvent`);
each `await` resolution is its own transition.  Targets are abstract
reference-stable handles, modelled as naturals; `canProfile` models
`target.canProfileExtensionHost()`. -/

/-- Reference-stable handle of an `ICpuProfilerTarget`. -/
abbrev Target := Nat

/-- Which `await` of `_onDidChangeResponsiveChange` an in-flight
invocation is suspended at. -/
inductive Phase where
  /-- At `await target.startExtensionHostProfile()` (line 57). -/
  | awaitingStart
  /-- At the bounded wait for cancellation or the 5 second timeout
  (lines 67-70). -/
  | awaitingWait
  /-- At `await session.stop()` (line 74). -/
  | awaitingStop
  /-- The invocation has returned. -/
  | finished
deriving DecidableEq

/-- One in-flight (or returned) invocation of the handler that reached
the start branch at line 52: its target, its suspension point, and
whether its `CancellationTokenSource` (line 52) has been cancelled. -/
structure Episode where
  target : Target
  phase : Phase
  cancelled : Bool
deriving DecidableEq

/-- State of the `ExtensionsAutoProfiler` instance plus its in-flight
handler invocations and the error side channel. -/
structure SessionState where
  table : Target → Bool
  episodes : Multiset Episode
  unexpectedErrors : Nat

/-- Pointwise update of the `_session` table
(`_session.set` / `_session.delete`). -/
def updateTable (f : Target → Bool) (t : Target) (b : Bool) : Target → Bool :=
  fun x => if x = t then b else f x

/-- Initial state: empty `_session` map, nothing in flight. -/
def initState : SessionState :=
  { table := fun _ => false, episodes := 0, unexpectedErrors := 0 }

/-- An episode that still holds resources: its invocation has not
returned. -/
def liveFor (t : Target) (e : Episode) : Prop :=
  e.target = t ∧ e.phase ≠ Phase.finished

instance (t : Target) : DecidablePred (liveFor t) :=
  fun e => inferInstanceAs (Decidable (e.target = t ∧ e.phase ≠ Phase.finished))

/-- Number of live handler invocations for a target; "two simultaneously
active sessions" means this exceeds one. -/
def liveCount (s : SessionState) (t : Target) : Nat :=
  Multiset.countP (liveFor t) s.episodes

/-- The synchronous prefix of `_onDidChangeResponsiveChange`
(lines 42-53): the `canProfileExtensionHost` guard, the
`isResponsive && has(target)` cancel branch (lines 46-48, which cancels
the token of the target's live episode and leaves the table untouched),
and the `!isResponsive && !has(target)` start branch (lines 50-53, which
inserts the table entry and creates the episode before the first
`await`).  Every other combination falls through with no effect. -/
def handleEvent (cp : Target → Bool) (s : SessionState) (t : Target)
    (isResponsive : Bool) : SessionState :=
  if cp t = false then s
  else if isResponsive = true ∧ s.table t = true then
    { s with episodes := s.episodes.map (fun e =>
        if liveFor t e then { e with cancelled := true } else e) }
  else if isResponsive = false ∧ s.table t = false then
    { s with table := updateTable s.table t true,
             episodes := (⟨t, Phase.awaitingStart, false⟩ : Episode) ::ₘ s.episodes }
  else s

/-- Resolution of `await target.startExtensionHostProfile()` by rejection
(lines 58-64): the entry is deleted and the invocation returns silently;
no error is reported. -/
def applyStartFail (s : SessionState) (e : Episode) : SessionState :=
  { table := updateTable s.table e.target false,
    episodes := { e with phase := Phase.finished } ::ₘ s.episodes.erase e,
    unexpectedErrors := s.unexpectedErrors }

/-- Resolution of `await target.startExtensionHostProfile()` by success:
the invocation proceeds to the bounded wait (lines 66-70). -/
def applyStartOk (s : SessionState) (e : Episode) : SessionState :=
  { s with episodes := { e with phase := Phase.awaitingWait } ::ₘ s.episodes.erase e }

/-- Resolution of the bounded wait (cancellation or timeout, lines
67-70): the invocation proceeds to `session.stop()`. -/
def applyWaitDone (s : SessionState) (e : Episode) : SessionState :=
  { s with episodes := { e with phase := Phase.awaitingStop } ::ₘ s.episodes.erase e }

/-- Resolution of `await session.stop()` (lines 72-79).  On success the
profile is processed (line 74); on failure `onUnexpectedError` is called
(line 76).  Either way the `finally` block (line 78) deletes the table
entry and the invocation returns. -/
def applyStopDone (s : SessionState) (e : Episode) (ok : Bool) : SessionState :=
  { table := updateTable s.table e.target false,
    episodes := { e with phase := Phase.finished } ::ₘ s.episodes.erase e,
    unexpectedErrors := s.unexpectedErrors + (if ok then 0 else 1) }

/-- Small-step transition relation of the session machine: delivery of a
responsiveness event (running the synchronous prefix atomically), or the
resolution of the `await` a live episode is suspended at. -/
inductive Step (cp : Target → Bool) : SessionState → SessionState → Prop
  | event (s : SessionState) (t : Target) (r : Bool) :
      Step cp s (handleEvent cp s t r)
  | startFail (s : SessionState) (e : Episode) (he : e ∈ s.episodes)
      (hph : e.phase = Phase.awaitingStart) : Step cp s (applyStartFail s e)
  | startOk (s : SessionState) (e : Episode) (he : e ∈ s.episodes)
      (hph : e.phase = Phase.awaitingStart) : Step cp s (applyStartOk s e)
  | waitDone (s : SessionState) (e : Episode) (he : e ∈ s.episodes)
      (hph : e.phase = Phase.awaitingWait) : Step cp s (applyWaitDone s e)
  | stopDone (s : SessionState) (e : Episode) (ok : Bool) (he : e ∈ s.episodes)
      (hph : e.phase = Phase.awaitingStop) : Step cp s (applyStopDone s e ok)

/-- States reachable from the freshly constructed profiler. -/
def Reachable (cp : Target → Bool) (s : SessionState) : Prop :=
  Relation.ReflTransGen (Step cp) initState s

/-- The machine invariant: a target has a `_session` entry exactly when
it has a live episode, and never more than one live episode. -/
def Inv (s : SessionState) : Prop :=
  ∀ t : Target, (s.table t = true ↔ 0 < liveCount s t) ∧ liveCount s t ≤ 1

/-! ### Claim-level properties and concrete example inputs -/

/-- Full correctness of the merge of lines 91-109 on index-aligned
samples: the merged list is strictly ascending in id, its ids are exactly
the distinct input ids, every slice's total is the sum of the deltas of
its id, and the per-id totals are invariant under any permutation of the
`(id, delta)` samples. -/
def MergeCorrect (ids : List String) (deltas : List ℚ) : Prop :=
  List.Chain' idLt (aggregateSamples ids deltas) ∧
  (∀ x : String, (∃ s ∈ aggregateSamples ids deltas, s.id = x) ↔ x ∈ ids) ∧
  (∀ s ∈ aggregateSamples ids deltas,
      s.total = (((ids.zip deltas).filter (fun p => p.1 = s.id)).map Prod.snd).sum) ∧
  (∀ ids2 deltas2, (ids.zip deltas).Perm (ids2.zip deltas2) →
      ∀ x : String, sliceTotal (aggregateSamples ids2 deltas2) x
        = sliceTotal (aggregateSamples ids deltas) x)

/-- Outcome of the start-failure path of lines 55-64, started from an
unresponsive event for `t` on state `s`: the failing start attempt is a
legal step of the machine, and after it the `_session` table, the error
side channel and the number of live episodes of every target are exactly
as they were before the event was delivered. -/
def StartFailureSilent (cp : Target → Bool) (s : SessionState) (t : Target) : Prop :=
  Step cp (handleEvent cp s t false)
      (applyStartFail (handleEvent cp s t false) ⟨t, Phase.awaitingStart, false⟩) ∧
  (applyStartFail (handleEvent cp s t false) ⟨t, Phase.awaitingStart, false⟩).table
      = s.table ∧
  (applyStartFail (handleEvent cp s t false) ⟨t, Phase.awaitingStart, false⟩).unexpectedErrors
      = s.unexpectedErrors ∧
  ∀ u, liveCount (applyStartFail (handleEvent cp s t false) ⟨t, Phase.awaitingStart, false⟩) u
      = liveCount s u

/-- The second example scenario of the specification: one sample
`("ext.c", 9900000)` over the window `[0, 10000000]`. -/
def exProfileC : IExtensionHostProfile :=
  { ids := ["ext.c"], deltas := [9900000], startTime := 0, endTime := 10000000 }

/-- The single merged slice of `exProfileC`. -/
def exSliceC : NamedSlice := { id := "ext.c", total := 9900000, percentage := 99 }

/-- The summary produced for `exProfileC`. -/
def exSummaryC : Summary :=
  { slices := [exSliceC], top := exSliceC, duration := 10000000, promptWarranted := true }

/-- A degenerate profile: one sample but a zero-length capture window. -/
def degProfile : IExtensionHostProfile :=
  { ids := ["ext.a"], deltas := [1000000], startTime := 5, endTime := 5 }

/-- The summary the code produces for `degProfile` in the rational model
(the percentage of a zero-duration profile is `jsRound (q / 0) = 0`
here; IEEE evaluation yields `Infinity`, but either way the code reaches
the reporting path). -/
def degSummary : Summary :=
  { slices := [{ id := "ext.a", total := 1000000, percentage := 0 }],
    top := { id := "ext.a", total := 1000000, percentage := 0 },
    duration := 0, promptWarranted := false }

/-- A profile with no samples at all. -/
def emptyProfile : IExtensionHostProfile :=
  { ids := [], deltas := [], startTime := 0, endTime := 0 }

/-- A single in-flight episode for target `0`, waiting for its start. -/
def exEpisode : Episode :=
  { target := 0, phase := Phase.awaitingStart, cancelled := false }

/-- A state in which target `0` has a registered session entry and one
live episode. -/
def exState : SessionState :=
  { table := fun x => decide (x = 0), episodes := {exEpisode}, unexpectedErrors := 0 }

/-- A state in which target `0` has an active session in its bounded
wait. -/
def busyState : SessionState :=
  { table := fun x => decide (x = 0),
    episodes := {(⟨0, Phase.awaitingWait, false⟩ : Episode)}, unexpectedErrors := 0 }

/-! ### Observables of the aggregation -/

theorem sliceTotal_cons (a : NamedSlice) (l : List NamedSlice) (x : String) :
    sliceTotal (a :: l) x = (if a.id = x then a.total else 0) + sliceTotal l x := by
  by_cases h : a.id = x <;> simp [sliceTotal, List.filter_cons, h]

theorem sliceTotal_perm {l₁ l₂ : List NamedSlice} (h : l₁.Perm l₂) (x : String) :
    sliceTotal l₁ x = sliceTotal l₂ x :=
  ((h.filter _).map _).sum_eq

theorem totalSum_cons (a : NamedSlice) (l : List NamedSlice) :
    totalSum (a :: l) = a.total + totalSum l := by
  simp [totalSum]

theorem totalSum_perm {l₁ l₂ : List NamedSlice} (h : l₁.Perm l₂) :
    totalSum l₁ = totalSum l₂ :=
  ((h.map _)).sum_eq

/-! ### Properties of the merge pass -/

theorem sliceTotal_mergeGo (l : List NamedSlice) : ∀ (a : NamedSlice) (x : String),
    sliceTotal (mergeGo a l) x = sliceTotal (a :: l) x := by
  induction l with
  | nil => intro a x; rfl
  | cons b rest ih =>
    intro a x
    by_cases h : a.id = b.id
    · rw [show mergeGo a (b :: rest)
          = mergeGo { id := a.id, total := a.total + b.total, percentage := a.percentage } rest
          from by simp [mergeGo, h], ih]
      by_cases hx : a.id = x
      · have hbx : b.id = x := h ▸ hx
        simp [sliceTotal_cons, hx, hbx]; ring
      · have hbx : ¬ b.id = x := h ▸ hx
        simp [sliceTotal_cons, hx, hbx]
    · rw [show mergeGo a (b :: rest) = a :: mergeGo b rest from by simp [mergeGo, h]]
      simp [sliceTotal_cons, ih]

theorem sliceTotal_mergeAdjacent (l : List NamedSlice) (x : String) :
    sliceTotal (mergeAdjacent l) x = sliceTotal l x := by
  cases l with
  | nil => rfl
  | cons a rest => exact sliceTotal_mergeGo rest a x

theorem totalSum_mergeGo (l : List NamedSlice) : ∀ a : NamedSlice,
    totalSum (mergeGo a l) = totalSum (a :: l) := by
  induction l with
  | nil => intro a; rfl
  | cons b rest ih =>
    intro a
    by_cases h : a.id = b.id
    · rw [show mergeGo a (b :: rest)
          = mergeGo { id := a.id, total := a.total + b.total, percentage := a.percentage } rest
          from by simp [mergeGo, h], ih]
      simp [totalSum_cons]; ring
    · rw [show mergeGo a (b :: rest) = a :: mergeGo b rest from by simp [mergeGo, h]]
      simp [totalSum_cons, ih]

theorem totalSum_mergeAdjacent (l : List NamedSlice) :
    totalSum (mergeAdjacent l) = totalSum l := by
  cases l with
  | nil => rfl
  | cons a rest => exact totalSum_mergeGo rest a

theorem mergeGo_head (l : List NamedSlice) : ∀ a : NamedSlice,
    ∃ t ts, mergeGo a l = t :: ts ∧ t.id = a.id := by
  induction l with
  | nil => intro a; exact ⟨a, [], rfl, rfl⟩
  | cons b rest ih =>
    intro a
    by_cases h : a.id = b.id
    · obtain ⟨t, ts, heq, hid⟩ :=
        ih { id := a.id, total := a.total + b.total, percentage := a.percentage }
      refine ⟨t, ts, ?_, hid⟩
      rw [show mergeGo a (b :: rest)
          = mergeGo { id := a.id, total := a.total + b.total, percentage := a.percentage } rest
          from by simp [mergeGo, h]]
      exact heq
    · exact ⟨a, mergeGo b rest, by simp [mergeGo, h], rfl⟩

theorem mergeGo_ne_nil (a : NamedSlice) (l : List NamedSlice) : mergeGo a l ≠ [] := by
  obtain ⟨t, ts, heq, -⟩ := mergeGo_head l a
  simp [heq]

theorem mergeAdjacent_eq_nil (l : List NamedSlice) : mergeAdjacent l = [] ↔ l = [] := by
  cases l with
  | nil => simp [mergeAdjacent]
  | cons a rest => simp [mergeAdjacent, mergeGo_ne_nil]

theorem chain_idLe_of_eq {a b : NamedSlice} (h : a.id = b.id) {l : List NamedSlice}
    (hc : List.Chain idLe b l) : List.Chain idLe a l := by
  cases l with
  | nil => exact List.Chain.nil
  | cons c rest =>
    cases hc with
    | cons hd tl => exact List.Chain.cons (le_trans (le_of_eq h) hd) tl

theorem mergeGo_chainLt (l : List NamedSlice) : ∀ a : NamedSlice,
    List.Chain idLe a l → List.Chain' idLt (mergeGo a l) := by
  induction l with
  | nil => intro a _; simp [mergeGo, List.chain'_singleton]
  | cons b rest ih =>
    intro a h
    cases h with
    | cons hab hrest =>
      by_cases hid : a.id = b.id
      · rw [show mergeGo a (b :: rest)
            = mergeGo { id := a.id, total := a.total + b.total, percentage := a.percentage } rest
            from by simp [mergeGo, hid]]
        exact ih _ (chain_idLe_of_eq
          (show ({ id := a.id, total := a.total + b.total,
                   percentage := a.percentage } : NamedSlice).id = b.id from hid) hrest)
      · rw [show mergeGo a (b :: rest) = a :: mergeGo b rest from by simp [mergeGo, hid]]
        obtain ⟨t, ts, heq, hti⟩ := mergeGo_head rest b
        rw [heq]
        refine List.chain'_cons.mpr ⟨?_, heq ▸ ih b hrest⟩
        show a.id < t.id
        rw [hti]
        exact lt_of_le_of_ne hab hid

theorem mergeGo_mem_id (l : List NamedSlice) : ∀ (a : NamedSlice) (x : String),
    (∃ s ∈ mergeGo a l, s.id = x) ↔ (∃ s ∈ a :: l, s.id = x) := by
  induction l with
  | nil => intro a x; rfl
  | cons b rest ih =>
    intro a x
    by_cases h : a.id = b.id
    · rw [show mergeGo a (b :: rest)
          = mergeGo { id := a.id, total := a.total + b.total, percentage := a.percentage } rest
          from by simp [mergeGo, h], ih]
      constructor
      · rintro (⟨s, hs, rfl⟩ : ∃ s ∈ _ :: rest, s.id = x)
        rcases List.mem_cons.mp hs with rfl | hs2
        · exact ⟨a, List.mem_cons_self a _, rfl⟩
        · exact ⟨s, by simp [hs2], rfl⟩
      · rintro ⟨s, hs, rfl⟩
        rcases List.mem_cons.mp hs with rfl | hs2
        · exact ⟨{ id := s.id, total := s.total + b.total, percentage := s.percentage },
            List.mem_cons_self _ _, rfl⟩
        · rcases List.mem_cons.mp hs2 with rfl | hs3
          · refine ⟨{ id := a.id, total := a.total + s.total, percentage := a.percentage },
              List.mem_cons_self _ _, ?_⟩
            simpa using h
          · exact ⟨s, by simp [hs3], rfl⟩
    · rw [show mergeGo a (b :: rest) = a :: mergeGo b rest from by simp [mergeGo, h]]
      constructor
      · rintro ⟨s, hs, rfl⟩
        rcases List.mem_cons.mp hs with rfl | hs2
        · exact ⟨s, List.mem_cons_self s _, rfl⟩
        · obtain ⟨u, hu, hux⟩ := (ih b s.id).mp ⟨s, hs2, rfl⟩
          exact ⟨u, by simp [List.mem_cons.mp hu], hux⟩
      · rintro ⟨s, hs, rfl⟩
        rcases List.mem_cons.mp hs with rfl | hs2
        · exact ⟨s, List.mem_cons_self s _, rfl⟩
        · obtain ⟨u, hu, hux⟩ := (ih b s.id).mpr ⟨s, by simp [hs2], rfl⟩
          exact ⟨u, by simp [hu], hux⟩

theorem mergeAdjacent_mem_id (l : List NamedSlice) (x : String) :
    (∃ s ∈ mergeAdjacent l, s.id = x) ↔ (∃ s ∈ l, s.id = x) := by
  cases l with
  | nil => rfl
  | cons a rest => exact mergeGo_mem_id rest a x

/-! ### Properties of the sort pass and of `buildData` -/

theorem sortById_perm (l : List NamedSlice) : (sortById l).Perm l :=
  List.perm_insertionSort idLe l

theorem sortById_sorted (l : List NamedSlice) : List.Sorted idLe (sortById l) :=
  List.sorted_insertionSort idLe l

theorem sliceTotal_buildData (ps : List (String × ℚ)) (x : String) :
    sliceTotal (ps.map mkSlice) x = ((ps.filter (fun p => p.1 = x)).map Prod.snd).sum := by
  induction ps with
  | nil => rfl
  | cons p ps ih =>
    by_cases h : p.1 = x <;>
      simp [sliceTotal_cons, List.filter_cons, h, ih, mkSlice]

theorem totalSum_buildData (ps : List (String × ℚ)) :
    totalSum (ps.map mkSlice) = (ps.map Prod.snd).sum := by
  induction ps with
  | nil => rfl
  | cons p ps ih => simp [totalSum_cons, ih, mkSlice]

/-! ### Properties of the whole aggregation, lines 91-109 -/

theorem aggregateSamples_chainLt (ids : List String) (deltas : List ℚ) :
    List.Chain' idLt (aggregateSamples ids deltas) := by
  unfold aggregateSamples
  cases hs : sortById (buildData ids deltas) with
  | nil => simp [mergeAdjacent]
  | cons a rest =>
    have hsorted : List.Chain' idLe (a :: rest) := by
      rw [← hs]; exact (sortById_sorted (buildData ids deltas)).chain'
    exact mergeGo_chainLt rest a hsorted

theorem aggregateSamples_sliceTotal (ids : List String) (deltas : List ℚ) (x : String) :
    sliceTotal (aggregateSamples ids deltas) x
      = (((ids.zip deltas).filter (fun p => p.1 = x)).map Prod.snd).sum := by
  unfold aggregateSamples
  rw [sliceTotal_mergeAdjacent, sliceTotal_perm (sortById_perm _) x]
  exact sliceTotal_buildData _ x

theorem aggregateSamples_totalSum (ids : List String) (deltas : List ℚ)
    (hlen : ids.length = deltas.length) :
    totalSum (aggregateSamples ids deltas) = deltas.sum := by
  unfold aggregateSamples
  rw [totalSum_mergeAdjacent, totalSum_perm (sortById_perm _)]
  have h := totalSum_buildData (ids.zip deltas)
  rw [List.map_snd_zip ids deltas (le_of_eq hlen.symm)] at h
  exact h

theorem aggregateSamples_mem_id (ids : List String) (deltas : List ℚ)
    (hlen : ids.length = deltas.length) (x : String) :
    (∃ s ∈ aggregateSamples ids deltas, s.id = x) ↔ x ∈ ids := by
  unfold aggregateSamples
  rw [mergeAdjacent_mem_id]
  have hperm : ∀ s : NamedSlice,
      s ∈ sortById (buildData ids deltas) ↔ s ∈ buildData ids deltas :=
    fun s => (sortById_perm _).mem_iff
  constructor
  · rintro ⟨s, hs, rfl⟩
    obtain ⟨p, hp, rfl⟩ := List.mem_map.mp ((hperm s).mp hs)
    have : p.1 ∈ (ids.zip deltas).map Prod.fst := List.mem_map.mpr ⟨p, hp, rfl⟩
    rwa [List.map_fst_zip ids deltas (le_of_eq hlen)] at this
  · intro hx
    have : x ∈ (ids.zip deltas).map Prod.fst := by
      rwa [List.map_fst_zip ids deltas (le_of_eq hlen)]
    obtain ⟨p, hp, hpx⟩ := List.mem_map.mp this
    exact ⟨mkSlice p, (hperm _).mpr (List.mem_map.mpr ⟨p, hp, rfl⟩), hpx⟩

theorem aggregateSamples_eq_nil (ids : List String) (deltas : List ℚ)
    (hlen : ids.length = deltas.length) :
    aggregateSamples ids deltas = [] ↔ ids = [] := by
  unfold aggregateSamples
  rw [mergeAdjacent_eq_nil]
  constructor
  · intro h
    have hbd : buildData ids deltas = [] := by
      have := (sortById_perm (buildData ids deltas)).length_eq
      rw [h] at this
      exact List.length_eq_zero.mp this.symm
    have : (ids.zip deltas).length = 0 := by
      simpa [buildData] using congrArg List.length hbd
    rw [List.length_zip, ← hlen, Nat.min_self] at this
    exact List.length_eq_zero.mp this
  · intro h
    subst h
    rfl

/-- Each merged slice carries the full cost of its contributor id: the
merged list has pairwise-distinct ids, so the filter in `sliceTotal`
singles out exactly that slice. -/
theorem filter_eq_singleton_of_distinct {l : List NamedSlice}
    (hp : l.Pairwise (fun a b => a.id ≠ b.id)) {s : NamedSlice} (hs : s ∈ l) :
    l.filter (fun a => a.id = s.id) = [s] := by
  induction l with
  | nil => cases hs
  | cons a rest ih =>
    obtain ⟨hhead, htail⟩ := List.pairwise_cons.mp hp
    rcases List.mem_cons.mp hs with rfl | hs2
    · rw [List.filter_cons_of_pos (by simp)]
      have : rest.filter (fun a => a.id = s.id) = [] := by
        rw [List.filter_eq_nil_iff]
        intro b hb
        simpa using (hhead b hb).symm
      rw [this]
    · rw [List.filter_cons_of_neg (by simpa using hhead s hs2), ih htail hs2]

theorem aggregateSamples_slice_total (ids : List String) (deltas : List ℚ)
    {s : NamedSlice} (hs : s ∈ aggregateSamples ids deltas) :
    s.total = (((ids.zip deltas).filter (fun p => p.1 = s.id)).map Prod.snd).sum := by
  have hpw : (aggregateSamples ids deltas).Pairwise idLt :=
    List.chain'_iff_pairwise.mp (aggregateSamples_chainLt ids deltas)
  have hne : (aggregateSamples ids deltas).Pairwise (fun a b => a.id ≠ b.id) :=
    hpw.imp (fun h => ne_of_lt h)
  have hfilter := filter_eq_singleton_of_distinct hne hs
  have : sliceTotal (aggregateSamples ids deltas) s.id = s.total := by
    rw [sliceTotal, hfilter]
    simp
  rw [← this, aggregateSamples_sliceTotal]

/-! ### Properties of the top-selection scan, lines 114-120 -/

theorem foldl_pickTop_firstMax (l : List NamedSlice) : ∀ t m : NamedSlice,
    l.foldl pickTop (some t) = some m → IsFirstMax (t :: l) m := by
  induction l with
  | nil =>
    intro t m h
    obtain rfl : t = m := by simpa using h
    exact ⟨[], [], rfl, by simp, by simp⟩
  | cons a rest ih =>
    intro t m h
    rw [List.foldl_cons] at h
    by_cases hc : t.percentage < a.percentage
    · rw [show pickTop (some t) a = some a from by simp [pickTop, hc]] at h
      obtain ⟨l₁, l₂, heq, h1, h2⟩ := ih a m h
      have ham : a.percentage ≤ m.percentage := by
        cases l₁ with
        | nil =>
          obtain rfl : a = m := by simpa using congrArg (fun l => l.head?) heq
          exact le_refl _
        | cons c l₁ =>
          have : a = c := by simpa using congrArg (fun l => l.head?) heq
          subst this
          exact le_of_lt (h1 a (List.mem_cons_self a _))
      refine ⟨t :: l₁, l₂, by simp [heq], ?_, h2⟩
      intro x hx
      rcases List.mem_cons.mp hx with rfl | hx2
      · exact lt_of_lt_of_le hc ham
      · exact h1 x hx2
    · rw [show pickTop (some t) a = some t from by simp [pickTop, hc]] at h
      obtain ⟨l₁, l₂, heq, h1, h2⟩ := ih t m h
      cases l₁ with
      | nil =>
        obtain rfl : t = m := by simpa using congrArg (fun l => l.head?) heq
        have : rest = l₂ := by simpa using heq
        subst this
        refine ⟨[], a :: rest, rfl, by simp, ?_⟩
        intro x hx
        rcases List.mem_cons.mp hx with rfl | hx2
        · exact le_of_not_lt hc
        · exact h2 x hx2
      | cons c l₁ =>
        have hct : t = c := by simpa using congrArg (fun l => l.head?) heq
        subst hct
        have hrest : rest = l₁ ++ m :: l₂ := by simpa using heq
        have htm : t.percentage < m.percentage := h1 t (List.mem_cons_self t _)
        refine ⟨t :: a :: l₁, l₂, by simp [hrest], ?_, h2⟩
        intro x hx
        rcases List.mem_cons.mp hx with rfl | hx2
        · exact htm
        · rcases List.mem_cons.mp hx2 with rfl | hx3
          · exact lt_of_le_of_lt (le_of_not_lt hc) htm
          · exact h1 x (List.mem_cons_of_mem _ hx3)

theorem findTop_firstMax {l : List NamedSlice} {m : NamedSlice}
    (h : findTop l = some m) : IsFirstMax l m := by
  cases l with
  | nil => cases h
  | cons a rest =>
    have h2 : rest.foldl pickTop (some a) = some m := by
      simpa [findTop, pickTop] using h
    exact foldl_pickTop_firstMax rest a m h2

theorem IsFirstMax.mem {l : List NamedSlice} {m : NamedSlice}
    (h : IsFirstMax l m) : m ∈ l := by
  obtain ⟨l₁, l₂, rfl, -, -⟩ := h
  simp

theorem IsFirstMax.le_max {l : List NamedSlice} {m : NamedSlice}
    (h : IsFirstMax l m) : ∀ x ∈ l, x.percentage ≤ m.percentage := by
  obtain ⟨l₁, l₂, rfl, h1, h2⟩ := h
  intro x hx
  rcases List.mem_append.mp hx with hx1 | hx2
  · exact le_of_lt (h1 x hx1)
  · rcases List.mem_cons.mp hx2 with rfl | hx3
    · exact le_refl _
    · exact h2 x hx3

theorem foldl_pickTop_isSome (l : List NamedSlice) : ∀ t : NamedSlice,
    ∃ m, l.foldl pickTop (some t) = some m := by
  induction l with
  | nil => intro t; exact ⟨t, rfl⟩
  | cons a rest ih =>
    intro t
    rw [List.foldl_cons]
    by_cases hc : t.percentage < a.percentage
    · rw [show pickTop (some t) a = some a from by simp [pickTop, hc]]
      exact ih a
    · rw [show pickTop (some t) a = some t from by simp [pickTop, hc]]
      exact ih t

theorem findTop_eq_none (l : List NamedSlice) : findTop l = none ↔ l = [] := by
  cases l with
  | nil => simp [findTop]
  | cons a rest =>
    obtain ⟨m, hm⟩ := foldl_pickTop_isSome rest a
    constructor
    · intro h
      rw [show findTop (a :: rest) = rest.foldl pickTop (some a) from by
        simp [findTop, pickTop], hm] at h
      cases h
    · intro h
      cases h

/-! ### Inversion of `processCpuProfile` -/

theorem processCpuProfile_eq_some {p : IExtensionHostProfile} {s : Summary}
    (h : processCpuProfile p = some s) :
    s.slices = (aggregateSamples p.ids p.deltas).map (setPercentage (durationOf p)) ∧
    findTop s.slices = some s.top ∧
    s.duration = durationOf p ∧
    s.promptWarranted = decide (99 ≤ s.top.percentage ∧ 5000000 ≤ s.top.total) := by
  unfold processCpuProfile at h
  cases hft : findTop ((aggregateSamples p.ids p.deltas).map (setPercentage (durationOf p))) with
  | none => rw [hft] at h; cases h
  | some t =>
    rw [hft] at h
    injection h with h2
    subst h2
    exact ⟨rfl, hft, rfl, rfl⟩

theorem processCpuProfile_eq_none (p : IExtensionHostProfile) :
    processCpuProfile p = none ↔
      findTop ((aggregateSamples p.ids p.deltas).map (setPercentage (durationOf p))) = none := by
  unfold processCpuProfile
  cases hft : findTop ((aggregateSamples p.ids p.deltas).map (setPercentage (durationOf p))) <;>
    simp [hft]


theorem updateTable_self (f : Target → Bool) (t : Target) (b : Bool) :
    updateTable f t b t = b := by
  simp [updateTable]

theorem updateTable_other (f : Target → Bool) (t : Target) (b : Bool) {x : Target}
    (h : x ≠ t) : updateTable f t b x = f x := by
  simp [updateTable, h]

theorem countP_replace {α : Type} [DecidableEq α] (p : α → Prop) [DecidablePred p]
    (m : Multiset α) (e e' : α) (he : e ∈ m) :
    Multiset.countP p (e' ::ₘ m.erase e) + (if p e then 1 else 0)
      = Multiset.countP p m + (if p e' then 1 else 0) := by
  conv_rhs => rw [← Multiset.cons_erase he]
  rw [Multiset.countP_cons, Multiset.countP_cons]
  omega

theorem Inv.congr {s s2 : SessionState} (hinv : Inv s)
    (ht : ∀ u, s2.table u = s.table u) (hc : ∀ u, liveCount s2 u = liveCount s u) :
    Inv s2 := by
  intro u
  rw [ht u, hc u]
  exact hinv u

theorem liveCount_map_cancel (m : Multiset Episode) (t u : Target) :
    Multiset.countP (liveFor u)
        (m.map (fun e => if liveFor t e then { e with cancelled := true } else e))
      = Multiset.countP (liveFor u) m := by
  rw [Multiset.countP_map, Multiset.countP_eq_card_filter]
  congr 1
  apply Multiset.filter_congr
  intro e _
  by_cases h : liveFor t e
  · rw [if_pos h]
    exact Iff.rfl
  · rw [if_neg h]

theorem liveCount_relabel (s : SessionState) (e : Episode) (ph : Phase)
    (he : e ∈ s.episodes) (hlive : e.phase ≠ Phase.finished)
    (hph2 : ph ≠ Phase.finished) (u : Target) :
    Multiset.countP (liveFor u) ({ e with phase := ph } ::ₘ s.episodes.erase e)
      = liveCount s u := by
  have hrep := countP_replace (liveFor u) s.episodes e { e with phase := ph } he
  by_cases hu : e.target = u
  · rw [if_pos (show liveFor u e from ⟨hu, hlive⟩),
      if_pos (show liveFor u ({ e with phase := ph }) from ⟨hu, hph2⟩)] at hrep
    unfold liveCount
    omega
  · rw [if_neg (show ¬ liveFor u e from fun h => hu h.1),
      if_neg (show ¬ liveFor u ({ e with phase := ph }) from fun h => hu h.1)] at hrep
    unfold liveCount
    omega

theorem inv_finish (s : SessionState) (e : Episode) (he : e ∈ s.episodes)
    (hlive : e.phase ≠ Phase.finished) (hinv : Inv s) (n : Nat) :
    Inv { table := updateTable s.table e.target false,
          episodes := { e with phase := Phase.finished } ::ₘ s.episodes.erase e,
          unexpectedErrors := n } := by
  intro u
  unfold liveCount
  dsimp only
  have hrep := countP_replace (liveFor u) s.episodes e { e with phase := Phase.finished } he
  rw [if_neg (show ¬ liveFor u ({ e with phase := Phase.finished }) from
    fun h => h.2 rfl)] at hrep
  by_cases hu : u = e.target
  · have hle : liveFor u e := ⟨hu.symm, hlive⟩
    rw [if_pos hle] at hrep
    have hpos : 0 < Multiset.countP (liveFor u) s.episodes :=
      Multiset.countP_pos.mpr ⟨e, he, hle⟩
    have hle1 : Multiset.countP (liveFor u) s.episodes ≤ 1 := (hinv u).2
    have htab : updateTable s.table e.target false u = false := by
      rw [hu, updateTable_self]
    rw [htab]
    constructor
    · constructor
      · intro h
        exact absurd h (by simp)
      · intro h
        exact absurd h (by omega)
    · omega
  · have hne : ¬ liveFor u e := fun h => hu (h.1.symm)
    rw [if_neg hne] at hrep
    have hu2 := hinv u
    unfold liveCount at hu2
    rw [updateTable_other _ _ _ hu]
    constructor
    · rw [show Multiset.countP (liveFor u)
          ({ e with phase := Phase.finished } ::ₘ s.episodes.erase e)
          = Multiset.countP (liveFor u) s.episodes from by omega]
      exact hu2.1
    · omega

theorem inv_handleEvent (cp : Target → Bool) (s : SessionState) (t : Target)
    (r : Bool) (hinv : Inv s) : Inv (handleEvent cp s t r) := by
  by_cases h1 : cp t = false
  · simpa [handleEvent, h1] using hinv
  · by_cases h2 : r = true ∧ s.table t = true
    · rw [show handleEvent cp s t r = { s with episodes := s.episodes.map (fun e =>
          if liveFor t e then { e with cancelled := true } else e) } from by
        simp [handleEvent, h1, h2]]
      exact Inv.congr hinv (fun u => rfl) (fun u => liveCount_map_cancel s.episodes t u)
    · by_cases h3 : r = false ∧ s.table t = false
      · rw [show handleEvent cp s t r = { s with table := updateTable s.table t true, episodes := (⟨t, Phase.awaitingStart, false⟩ : Episode) ::ₘ s.episodes } from by
          simp [handleEvent, h1, h2, h3]]
        intro u
        unfold liveCount
        dsimp only
        by_cases hu : u = t
        · have hc0 : Multiset.countP (liveFor u) s.episodes = 0 := by
            rcases Nat.eq_zero_or_pos (Multiset.countP (liveFor u) s.episodes) with h0 | hpos
            · exact h0
            · have := (hinv u).1.mpr hpos
              rw [hu] at this
              exact absurd this (by simp [h3.2])
          rw [Multiset.countP_cons,
            if_pos (show liveFor u (⟨t, Phase.awaitingStart, false⟩ : Episode) from
              ⟨hu.symm, by simp⟩), hc0]
          have htab : updateTable s.table t true u = true := by
            rw [hu, updateTable_self]
          rw [htab]
          constructor
          · simp
          · omega
        · rw [Multiset.countP_cons,
            if_neg (show ¬ liveFor u (⟨t, Phase.awaitingStart, false⟩ : Episode) from
              fun h => hu (h.1.symm))]
          rw [updateTable_other _ _ _ hu]
          have := hinv u
          unfold liveCount at this
          simpa using this
      · rw [show handleEvent cp s t r = s from by simp [handleEvent, h1, h2, h3]]
        exact hinv

theorem step_preserves_inv (cp : Target → Bool) {s s2 : SessionState}
    (h : Step cp s s2) (hinv : Inv s) : Inv s2 := by
  cases h with
  | event t r => exact inv_handleEvent cp s t r hinv
  | startFail e he hph =>
    exact inv_finish s e he (by simp [hph]) hinv s.unexpectedErrors
  | startOk e he hph =>
    refine Inv.congr hinv (fun u => rfl) (fun u => ?_)
    exact liveCount_relabel s e Phase.awaitingWait he (by simp [hph]) (by simp) u
  | waitDone e he hph =>
    refine Inv.congr hinv (fun u => rfl) (fun u => ?_)
    exact liveCount_relabel s e Phase.awaitingStop he (by simp [hph]) (by simp) u
  | stopDone e ok he hph =>
    exact inv_finish s e he (by simp [hph]) hinv _

theorem inv_init : Inv initState := by
  intro t
  simp [initState, liveCount]

theorem reachable_inv (cp : Target → Bool) {s : SessionState}
    (h : Reachable cp s) : Inv s := by
  induction h with
  | refl => exact inv_init
  | tail _ hstep ih => exact step_preserves_inv cp hstep ih

theorem liveCount_handleEvent_ge (cp : Target → Bool) (s : SessionState) (t : Target)
    (r : Bool) (u : Target) : liveCount s u ≤ liveCount (handleEvent cp s t r) u := by
  by_cases h1 : cp t = false
  · simp [handleEvent, h1]
  · by_cases h2 : r = true ∧ s.table t = true
    · rw [show handleEvent cp s t r = { s with episodes := s.episodes.map (fun e =>
          if liveFor t e then { e with cancelled := true } else e) } from by
        simp [handleEvent, h1, h2]]
      exact le_of_eq (liveCount_map_cancel s.episodes t u).symm
    · by_cases h3 : r = false ∧ s.table t = false
      · rw [show handleEvent cp s t r = { s with table := updateTable s.table t true, episodes := (⟨t, Phase.awaitingStart, false⟩ : Episode) ::ₘ s.episodes } from by
          simp [handleEvent, h1, h2, h3]]
        unfold liveCount
        dsimp only
        rw [Multiset.countP_cons]
        omega
      · rw [show handleEvent cp s t r = s from by simp [handleEvent, h1, h2, h3]]

theorem liveCount_finish_ne (s : SessionState) (e : Episode) (he : e ∈ s.episodes)
    {t : Target} (hne : t ≠ e.target) :
    Multiset.countP (liveFor t) ({ e with phase := Phase.finished } ::ₘ s.episodes.erase e)
      = liveCount s t := by
  have hrep := countP_replace (liveFor t) s.episodes e { e with phase := Phase.finished } he
  rw [if_neg (show ¬ liveFor t e from fun h => hne (h.1.symm)),
    if_neg (show ¬ liveFor t ({ e with phase := Phase.finished }) from
      fun h => hne (h.1.symm))] at hrep
  unfold liveCount
  omega

/-! ### Evaluation of the model on the concrete example profiles -/

theorem exProfileC_eval : processCpuProfile exProfileC = some exSummaryC := by
  simp only [exProfileC, exSummaryC, exSliceC, processCpuProfile, aggregateSamples, sortById,
    buildData, mkSlice, mergeAdjacent, mergeGo, durationOf, setPercentage, findTop, pickTop,
    jsRound, List.insertionSort, List.orderedInsert, List.zip, List.zipWith, List.map,
    List.foldl]
  norm_num

theorem degProfile_eval : processCpuProfile degProfile = some degSummary := by
  simp only [degProfile, degSummary, processCpuProfile, aggregateSamples, sortById,
    buildData, mkSlice, mergeAdjacent, mergeGo, durationOf, setPercentage, findTop, pickTop,
    jsRound, List.insertionSort, List.orderedInsert, List.zip, List.zipWith, List.map,
    List.foldl]
  norm_num

/-! ## The claims -/

/-- C1: for every profile whose `ids` and `deltas` are index-aligned
sequences of equal length, the aggregation of `_processCpuProfile`
produces exactly one slice per distinct contributor id (strictly
ascending id order, ids exactly the distinct input ids), the total of the
slice for an id is the sum of all `deltas[i]` whose `ids[i]` equals that
id, and the per-id totals do not depend on the order of the input
samples. -/
theorem merge_by_id_correct (ids : List String) (deltas : List ℚ)
    (hlen : ids.length = deltas.length) : MergeCorrect ids deltas := by
  refine ⟨aggregateSamples_chainLt ids deltas,
    fun x => aggregateSamples_mem_id ids deltas hlen x,
    fun s hs => aggregateSamples_slice_total ids deltas hs, ?_⟩
  intro ids2 deltas2 hperm x
  rw [aggregateSamples_sliceTotal, aggregateSamples_sliceTotal]
  exact (((hperm.symm).filter _).map _).sum_eq

/-- Witness for C1 at a concrete one-sample profile. -/
theorem merge_by_id_correct_witness :
    (["ext.a"] : List String).length = ([1000000] : List ℚ).length ∧
    MergeCorrect ["ext.a"] [1000000] :=
  ⟨rfl, merge_by_id_correct ["ext.a"] [1000000] rfl⟩

/-- C2: in every reachable state of the session machine, every target has
at most one live profiling episode, and a `_session` table entry exists
exactly when a live episode does.  Hence delivery of two "became
unresponsive" events for the same target can never yield two
simultaneously active sessions: `_onDidChangeResponsiveChange` starts a
session only when no entry exists and inserts the placeholder entry
synchronously before its first suspension point. -/
theorem at_most_one_session (cp : Target → Bool) (s : SessionState)
    (h : Reachable cp s) (t : Target) :
    liveCount s t ≤ 1 ∧ (s.table t = true ↔ 0 < liveCount s t) :=
  ⟨(reachable_inv cp h t).2, (reachable_inv cp h t).1⟩

/-- Witness for C2 in the initial (reachable) state. -/
theorem at_most_one_session_witness :
    liveCount initState 0 ≤ 1 ∧ (initState.table 0 = true ↔ 0 < liveCount initState 0) :=
  at_most_one_session (fun _ => true) initState Relation.ReflTransGen.refl 0

/-- C3: for every produced summary, the prompt flag of line 135 is true
exactly when the top slice has `percentage >= 99` and
`total >= 5,000,000`. -/
theorem prompt_threshold (p : IExtensionHostProfile) (s : Summary)
    (h : processCpuProfile p = some s) :
    s.promptWarranted = true ↔ (99 ≤ s.top.percentage ∧ 5000000 ≤ s.top.total) := by
  obtain ⟨-, -, -, h4⟩ := processCpuProfile_eq_some h
  rw [h4, decide_eq_true_iff]

/-- Witness for C3 at the specification's second example scenario, where
the prompt is warranted. -/
theorem prompt_threshold_witness :
    processCpuProfile exProfileC = some exSummaryC ∧
    (exSummaryC.promptWarranted = true ↔
      (99 ≤ exSummaryC.top.percentage ∧ 5000000 ≤ exSummaryC.top.total)) :=
  ⟨exProfileC_eval, prompt_threshold exProfileC exSummaryC exProfileC_eval⟩

/-- C4: for every produced summary, `top` is a member of the merged slice
list attaining the maximal percentage, and it is the first such slice in
the ascending-id merged order: everything before it is strictly smaller
(the scan replaces `top` only on strict `>`), everything after it is no
larger. -/
theorem top_first_maximum (p : IExtensionHostProfile) (s : Summary)
    (h : processCpuProfile p = some s) :
    IsFirstMax s.slices s.top ∧ ∀ x ∈ s.slices, x.percentage ≤ s.top.percentage := by
  obtain ⟨-, h2, -, -⟩ := processCpuProfile_eq_some h
  exact ⟨findTop_firstMax h2, (findTop_firstMax h2).le_max⟩

/-- Witness for C4. -/
theorem top_first_maximum_witness :
    processCpuProfile exProfileC = some exSummaryC ∧
    (IsFirstMax exSummaryC.slices exSummaryC.top ∧
      ∀ x ∈ exSummaryC.slices, x.percentage ≤ exSummaryC.top.percentage) :=
  ⟨exProfileC_eval, top_first_maximum exProfileC exSummaryC exProfileC_eval⟩

/-- C5: for positive duration, every slice of a produced summary has
`percentage = round(total / (duration / 100))`, which equals
`round(total * 100 / duration)`. -/
theorem percentage_formula (p : IExtensionHostProfile) (s : Summary) (x : NamedSlice)
    (h : processCpuProfile p = some s) (hx : x ∈ s.slices) (hdur : 0 < durationOf p) :
    x.percentage = jsRound (x.total * 100 / durationOf p) := by
  obtain ⟨h1, -, -, -⟩ := processCpuProfile_eq_some h
  rw [h1] at hx
  obtain ⟨y, hy, rfl⟩ := List.mem_map.mp hx
  show jsRound (y.total / (durationOf p / 100)) = jsRound (y.total * 100 / durationOf p)
  rw [div_div_eq_mul_div]

/-- Witness for C5: the specification's example of a 9,900,000 delta over
a 10,000,000 window, whose percentage is 99. -/
theorem percentage_formula_witness :
    processCpuProfile exProfileC = some exSummaryC ∧ exSliceC ∈ exSummaryC.slices ∧
    0 < durationOf exProfileC ∧
    exSliceC.percentage = jsRound (exSliceC.total * 100 / durationOf exProfileC) ∧
    exSliceC.percentage = 99 :=
  ⟨exProfileC_eval, by simp [exSummaryC], by norm_num [durationOf, exProfileC],
    percentage_formula exProfileC exSummaryC exSliceC exProfileC_eval
      (by simp [exSummaryC]) (by norm_num [durationOf, exProfileC]),
    by norm_num [exSliceC]⟩

/-- C6 counterexample: a profile with a non-empty sample set and a
zero-length capture window is degenerate in the claim's sense, yet
`_processCpuProfile` does not treat the episode as "nothing to report".
The early return of lines 122-124 fires only when the merged list is
empty, so a summary is produced and the reporting path (extension lookup,
telemetry event, profile file write, possible prompt) is entered. -/
theorem degenerate_duration_still_reports :
    durationOf degProfile ≤ 0 ∧ processCpuProfile degProfile ≠ none := by
  constructor
  · norm_num [durationOf, degProfile]
  · rw [degProfile_eval]
    simp

/-- C6 amended: aggregation yields no summary (and the episode is
reported nowhere, without an error) exactly when the sample set is empty;
a zero-or-negative duration alone does not suppress reporting. -/
theorem no_summary_iff_no_samples (p : IExtensionHostProfile)
    (hlen : p.ids.length = p.deltas.length) :
    processCpuProfile p = none ↔ p.ids = [] := by
  rw [processCpuProfile_eq_none, findTop_eq_none, List.map_eq_nil_iff,
    aggregateSamples_eq_nil p.ids p.deltas hlen]

/-- Witness for the amended C6 at the empty profile. -/
theorem no_summary_iff_no_samples_witness :
    emptyProfile.ids.length = emptyProfile.deltas.length ∧
    (processCpuProfile emptyProfile = none ↔ emptyProfile.ids = []) :=
  ⟨rfl, no_summary_iff_no_samples emptyProfile rfl⟩

/-- C7: every step of the session machine that terminates a live episode
of a target — the start attempt failing (lines 58-64), or the resolution
of `session.stop()` after the bounded wait, whether it succeeds or fails
(lines 72-79) — leaves that target with no `_session` table entry. -/
theorem table_cleared_on_termination (cp : Target → Bool) {s s2 : SessionState}
    (hstep : Step cp s s2) (t : Target) (hterm : liveCount s2 t < liveCount s t) :
    s2.table t = false := by
  cases hstep with
  | event t2 r => exact absurd hterm (not_lt.mpr (liveCount_handleEvent_ge cp s t2 r t))
  | startFail e he hph =>
    by_cases hu : t = e.target
    · show updateTable s.table e.target false t = false
      rw [hu, updateTable_self]
    · have heq : liveCount (applyStartFail s e) t = liveCount s t :=
        liveCount_finish_ne s e he hu
      rw [heq] at hterm
      exact absurd hterm (lt_irrefl _)
  | startOk e he hph =>
    have heq : liveCount (applyStartOk s e) t = liveCount s t :=
      liveCount_relabel s e Phase.awaitingWait he (by simp [hph]) (by simp) t
    rw [heq] at hterm
    exact absurd hterm (lt_irrefl _)
  | waitDone e he hph =>
    have heq : liveCount (applyWaitDone s e) t = liveCount s t :=
      liveCount_relabel s e Phase.awaitingStop he (by simp [hph]) (by simp) t
    rw [heq] at hterm
    exact absurd hterm (lt_irrefl _)
  | stopDone e ok he hph =>
    by_cases hu : t = e.target
    · show updateTable s.table e.target false t = false
      rw [hu, updateTable_self]
    · have heq : liveCount (applyStopDone s e ok) t = liveCount s t :=
        liveCount_finish_ne s e he hu
      rw [heq] at hterm
      exact absurd hterm (lt_irrefl _)

/-- Witness for C7: failing the start attempt of the only live episode of
target 0 clears its table entry. -/
theorem table_cleared_on_termination_witness :
    liveCount (applyStartFail exState exEpisode) 0 < liveCount exState 0 ∧
    (applyStartFail exState exEpisode).table 0 = false := by
  have hstep : Step (fun _ => true) exState (applyStartFail exState exEpisode) :=
    Step.startFail exState exEpisode (by simp [exState]) rfl
  have hlt : liveCount (applyStartFail exState exEpisode) 0 < liveCount exState 0 := by
    decide
  exact ⟨hlt, table_cleared_on_termination (fun _ => true) hstep 0 hlt⟩

/-- C8: when starting the profiling session fails, the handler returns
without reporting an error: the failing start attempt is a legal step of
the machine, and after it the `_session` table is pointwise what it was
before the event, the `onUnexpectedError` counter is unchanged, and no
target has gained or lost a live episode. -/
theorem start_failure_silent (cp : Target → Bool) (s : SessionState) (t : Target)
    (hcp : cp t = true) (hno : s.table t = false) : StartFailureSilent cp s t := by
  have hhe : handleEvent cp s t false = { s with table := updateTable s.table t true, episodes := (⟨t, Phase.awaitingStart, false⟩ : Episode) ::ₘ s.episodes } := by
    simp [handleEvent, hcp, hno]
  unfold StartFailureSilent
  rw [hhe]
  refine ⟨Step.startFail _ _ (Multiset.mem_cons_self _ _) rfl, ?_, rfl, ?_⟩
  · funext x
    show updateTable (updateTable s.table t true) t false x = s.table x
    by_cases hx : x = t
    · rw [hx, updateTable_self, hno]
    · rw [updateTable_other _ _ _ hx, updateTable_other _ _ _ hx]
  · intro u
    unfold liveCount applyStartFail
    dsimp only
    rw [Multiset.erase_cons_head, Multiset.countP_cons,
      if_neg (show ¬ liveFor u (⟨t, Phase.finished, false⟩ : Episode) from fun h => h.2 rfl)]
    exact Nat.add_zero _

/-- Witness for C8 from the initial state. -/
theorem start_failure_silent_witness :
    (fun _ : Target => true) 0 = true ∧ initState.table 0 = false ∧
    StartFailureSilent (fun _ => true) initState 0 :=
  ⟨rfl, rfl, start_failure_silent (fun _ => true) initState 0 rfl rfl⟩

/-- C9: the no-op paths of lines 42-51: an event for a target that cannot
be profiled, a "responsive" event for a target with no active session,
and an "unresponsive" event for a target that already has one, all leave
the state exactly unchanged — no session started, no cancellation
signalled, nothing reported. -/
theorem no_op_paths (cp : Target → Bool) (s : SessionState) (t : Target) (r : Bool) :
    (cp t = false → handleEvent cp s t r = s) ∧
    (r = true → s.table t = false → handleEvent cp s t r = s) ∧
    (r = false → s.table t = true → handleEvent cp s t r = s) := by
  refine ⟨fun h => by simp [handleEvent, h], fun hr ht => ?_, fun hr ht => ?_⟩
  · by_cases hcp : cp t = false <;> simp [handleEvent, hcp, hr, ht]
  · by_cases hcp : cp t = false <;> simp [handleEvent, hcp, hr, ht]

/-- Witness for C9: all three no-op paths at concrete states. -/
theorem no_op_paths_witness :
    handleEvent (fun _ => false) initState 0 true = initState ∧
    handleEvent (fun _ => true) initState 0 true = initState ∧
    handleEvent (fun _ => true) busyState 0 false = busyState :=
  ⟨(no_op_paths (fun _ => false) initState 0 true).1 rfl,
   (no_op_paths (fun _ => true) initState 0 true).2.1 rfl rfl,
   (no_op_paths (fun _ => true) busyState 0 false).2.2 rfl rfl⟩

/-- C10: merging conserves total cost — the sum of the merged totals is
the sum of all input deltas — and the merged list is empty exactly when
the input sample list is. -/
theorem merge_conserves (ids : List String) (deltas : List ℚ)
    (hlen : ids.length = deltas.length) :
    totalSum (aggregateSamples ids deltas) = deltas.sum ∧
    (aggregateSamples ids deltas = [] ↔ ids = []) :=
  ⟨aggregateSamples_totalSum ids deltas hlen, aggregateSamples_eq_nil ids deltas hlen⟩

/-- Witness for C10. -/
theorem merge_conserves_witness :
    (["ext.a"] : List String).length = ([1000000] : List ℚ).length ∧
    (totalSum (aggregateSamples ["ext.a"] [1000000]) = ([1000000] : List ℚ).sum ∧
      (aggregateSamples ["ext.a"] [1000000] = [] ↔ (["ext.a"] : List String) = [])) :=
  ⟨rfl, merge_conserves ["ext.a"] [1000000] rfl⟩

end AutoProfiler
